import Mathlib

/-!
Verification development for `gistools/geometry_operations.py`.

The program simplifies a planar network of line segments.  Its core,
`weld_segments` / `_weld_segments`, repeatedly classifies each edge by the
number of neighbouring edges (computed with the geometric predicates
`touches`, `intersects`, `within`, `equals`, `disjoint` of the shapely
library), deletes unused dead ends, and merges chains with
`shapely.ops.linemerge`.  Supporting functions build a node table from edge
endpoints (`create_nodes`), annotate edges with node ids
(`insert_node_ids`), and decompose polylines into atomic two-point edges
(`split_linestring`, `split_multilinestr_to_linestr`, `mls_to_ls`).

The weld engine is embedded generically over a `Kernel` of geometric
predicates (the shapely calls the source makes are external-library calls;
the engine's control flow is translated from the source line by line).  A
concrete kernel `CK` over exact integer coordinates implements the OGC
predicate semantics for the simple (non self-intersecting) line geometries
used in the concrete runs, so that every classification decision can be
evaluated by the kernel reducing closed terms.
-/

/-! ## Small list helpers (kept bare so that closed terms reduce by `rfl`) -/

def listConcatMap (f : α → List β) : List α → List β
  | [] => []
  | a :: as => f a ++ listConcatMap f as

def enumNats : Nat → List α → List (Nat × α)
  | _, [] => []
  | i, a :: as => (i, a) :: enumNats (i + 1) as

def dedupFirst [DecidableEq α] (l : List α) : List α :=
  l.foldl (fun acc a => if a ∈ acc then acc else acc ++ [a]) []

/-! ## Concrete geometry: exact integer coordinates

`Pt` is a 2D point with integer coordinates; `Geom` is a (multi-)line:
a list of parts, each part a polyline given by its vertex list.  A
single-part geometry models a shapely `LineString`, several parts model a
`MultiLineString` (such as the output of an unsuccessful `linemerge`).
All predicates below are exact integer computations. -/

structure Pt where
  x : Int
  y : Int
deriving DecidableEq

structure Geom where
  parts : List (List Pt)
deriving DecidableEq

/-- Twice the signed area of triangle a b c; zero iff collinear. -/
def orient2 (a b c : Pt) : Int :=
  (b.x - a.x) * (c.y - a.y) - (b.y - a.y) * (c.x - a.x)

def subP (a b : Pt) : Pt := ⟨a.x - b.x, a.y - b.y⟩

def dotD (a b : Pt) : Int := a.x * b.x + a.y * b.y

/-- Point p lies on the closed segment s (collinear and inside the box). -/
def onSeg (p : Pt) (s : Pt × Pt) : Bool :=
  decide (orient2 s.1 s.2 p = 0 ∧
    min s.1.x s.2.x ≤ p.x ∧ p.x ≤ max s.1.x s.2.x ∧
    min s.1.y s.2.y ≤ p.y ∧ p.y ≤ max s.1.y s.2.y)

/-- The interiors of s and t cross at a single proper crossing point. -/
def properCross (s t : Pt × Pt) : Bool :=
  decide (orient2 s.1 s.2 t.1 * orient2 s.1 s.2 t.2 < 0 ∧
          orient2 t.1 t.2 s.1 * orient2 t.1 t.2 s.2 < 0)

/-- Closed segments s and t share at least one point (standard exact test). -/
def segIntersects (s t : Pt × Pt) : Bool :=
  properCross s t || onSeg t.1 s || onSeg t.2 s || onSeg s.1 t || onSeg s.2 t

/-- s and t are collinear and overlap in a sub-segment of positive length. -/
def collinearOverlapPos (s t : Pt × Pt) : Bool :=
  let d := subP s.2 s.1
  let a := dotD (subP t.1 s.1) d
  let b := dotD (subP t.2 s.1) d
  let dd := dotD d d
  decide (orient2 s.1 s.2 t.1 = 0 ∧ orient2 s.1 s.2 t.2 = 0 ∧
          0 < dd ∧ max (min a b) 0 < min (max a b) dd)

def segsOfPart : List Pt → List (Pt × Pt)
  | [] => []
  | [_] => []
  | a :: b :: rest => (a, b) :: segsOfPart (b :: rest)

def segsOf (g : Geom) : List (Pt × Pt) := listConcatMap segsOfPart g.parts

def vertsOf (g : Geom) : List Pt := listConcatMap id g.parts

def ptOnGeom (p : Pt) (g : Geom) : Bool := (segsOf g).any (fun s => onSeg p s)

/-- OGC boundary of one polyline part: its two endpoints, empty if the part
is closed (first vertex equals last vertex) or degenerate. -/
def boundaryOfCoords (l : List Pt) : List Pt :=
  match l with
  | [] => []
  | p :: ps => if (p :: ps).getLastD p = p then [] else [p, (p :: ps).getLastD p]

/-- OGC boundary of a multi-line: the part endpoints occurring an odd number
of times (mod-2 rule), in first-seen order. -/
def cBoundary (g : Geom) : List Pt :=
  let ends := listConcatMap boundaryOfCoords g.parts
  dedupFirst (ends.filter (fun v => ends.count v % 2 = 1))

/-- The interiors of g and h share a point: a proper crossing, a collinear
overlap of positive length, or a vertex on both geometries that is a
boundary point of neither.  Exact for simple line geometries. -/
def cInteriorsMeet (g h : Geom) : Bool :=
  (segsOf g).any (fun s => (segsOf h).any (fun t =>
      properCross s t || collinearOverlapPos s t)) ||
  (vertsOf g ++ vertsOf h).any (fun v =>
      ptOnGeom v g && ptOnGeom v h &&
      !(cBoundary g).contains v && !(cBoundary h).contains v)

def cIntersects (g h : Geom) : Bool :=
  (segsOf g).any (fun s => (segsOf h).any (fun t => segIntersects s t))

def cTouches (g h : Geom) : Bool := cIntersects g h && !cInteriorsMeet g h

def cDisjoint (g h : Geom) : Bool := !cIntersects g h

/-- shapely `point.intersects(line)`: the point lies anywhere on the line. -/
def cPtIntersects (p : Pt) (g : Geom) : Bool := ptOnGeom p g

/-- shapely `point.touches(line)`: the point lies on the line's boundary
(a point in the line's interior has intersecting interiors, hence does
not touch). -/
def cPtTouches (p : Pt) (g : Geom) : Bool := (cBoundary g).contains p

/-- Greedy closed-interval cover check: do the intervals `ivs` cover
`[cur, tgt]`?  Each step jumps to the furthest right end reachable. -/
def coverLoop (ivs : List (Int × Int)) : Nat → Int → Int → Bool
  | 0, cur, tgt => decide (tgt ≤ cur)
  | fuel + 1, cur, tgt =>
    if tgt ≤ cur then true
    else
      let best := ivs.foldl (fun acc iv => if iv.1 ≤ cur then max acc iv.2 else acc) cur
      if cur < best then coverLoop ivs fuel best tgt else false

/-- Segment s is covered by the union of the segments `hsegs` (only
collinear segments can contribute a sub-segment of positive length). -/
def segCoveredBy (s : Pt × Pt) (hsegs : List (Pt × Pt)) : Bool :=
  let d := subP s.2 s.1
  let dd := dotD d d
  if dd = 0 then hsegs.any (fun t => onSeg s.1 t)
  else
    let co := hsegs.filter (fun t =>
      decide (orient2 s.1 s.2 t.1 = 0 ∧ orient2 s.1 s.2 t.2 = 0))
    let ivs := co.map (fun t =>
      let a := dotD (subP t.1 s.1) d
      let b := dotD (subP t.2 s.1) d
      (min a b, max a b))
    coverLoop ivs (ivs.length + 1) 0 dd

/-- shapely `g.within(h)` for line geometries: every point of g lies on h. -/
def cWithin (g h : Geom) : Bool := (segsOf g).all (fun s => segCoveredBy s (segsOf h))

/-- shapely `g.equals(h)`: same point set. -/
def cEquals (g h : Geom) : Bool := cWithin g h && cWithin h g

/-! ### Concrete `shapely.ops.linemerge`

GEOS's line merger joins polylines end to end at nodes where exactly two
part-ends meet, and leaves everything else as separate parts (it never
fails; disconnected or branching input yields a multi-part result). -/

def endsOfPart : List Pt → List Pt
  | [] => []
  | p :: ps => [p, (p :: ps).getLastD p]

def partEndsAll (parts : List (List Pt)) : List Pt :=
  listConcatMap endsOfPart parts

/-- Join p and q if they share an end at which exactly two part-ends of the
whole collection meet (degree given by `deg`). -/
def joinParts (deg : Pt → Nat) (p q : List Pt) : Option (List Pt) :=
  match p, q with
  | ph :: pt, qh :: qt =>
    if (ph :: pt).getLastD ph = qh ∧ deg ((ph :: pt).getLastD ph) = 2 then
      some (p ++ qt)
    else if (ph :: pt).getLastD ph = (qh :: qt).getLastD qh ∧
        deg ((ph :: pt).getLastD ph) = 2 then
      some (p ++ (q.reverse).tail)
    else if ph = qh ∧ deg ph = 2 then some (p.reverse ++ qt)
    else if ph = (qh :: qt).getLastD qh ∧ deg ph = 2 then some (q ++ pt)
    else none
  | _, _ => none

def scanJoin2 (deg : Pt → Nat) (p : List Pt) :
    List (List Pt) → List (List Pt) → Option (List Pt × List (List Pt))
  | [], _ => none
  | q :: qs, acc =>
    match joinParts deg p q with
    | some m => some (m, acc ++ qs)
    | none => scanJoin2 deg p qs (acc ++ [q])

def scanJoin (deg : Pt → Nat) : List (List Pt) → Option (List (List Pt))
  | [] => none
  | p :: rest =>
    match scanJoin2 deg p rest [] with
    | some (m, rest2) => some (m :: rest2)
    | none =>
      match scanJoin deg rest with
      | some rest2 => some (p :: rest2)
      | none => none

def lineMergeLoop : Nat → List (List Pt) → List (List Pt)
  | 0, parts => parts
  | fuel + 1, parts =>
    match scanJoin (fun v => (partEndsAll parts).count v) parts with
    | some parts2 => lineMergeLoop fuel parts2
    | none => parts

/-- `shapely.ops.linemerge` over the flattened parts of the input lines
(the source flattens any `MultiLineString` member before merging). -/
def cLineMerge (gs : List Geom) : Geom :=
  let parts := listConcatMap Geom.parts gs
  ⟨lineMergeLoop parts.length parts⟩

/-! ## The geometric predicate kernel

`_weld_segments` queries geometry exclusively through these shapely
operations; the engine below is parametric in them.  `boundary` models
`geom.boundary` as the list of boundary points (empty for a closed line,
which is what makes `boundary[0]` raise an IndexError in the source). -/

structure Kernel (G P : Type) where
  touches : G → G → Bool
  intersects : G → G → Bool
  within : G → G → Bool
  equals : G → G → Bool
  disjoint : G → G → Bool
  boundary : G → List P
  ptIntersects : P → G → Bool
  ptTouches : P → G → Bool
  lineMerge : List G → G

/-- The concrete shapely-like kernel over exact integer geometry. -/
def CK : Kernel Geom Pt where
  touches := cTouches
  intersects := cIntersects
  within := cWithin
  equals := cEquals
  disjoint := cDisjoint
  boundary := cBoundary
  ptIntersects := cPtIntersects
  ptTouches := cPtTouches
  lineMerge := cLineMerge

/-! ## `any_check` (geometry_operations.py, lines 430-469)

`any_check(geom_test, gdf, how)` iterates over the geometries of `gdf`
and returns True at the first `g` with `geom_test.how(g)` true. -/

def any_check (geom_test : α) (gdf : List β) (how : α → β → Bool) : Bool :=
  gdf.any (fun g => how geom_test g)

/-! ## The weld engine (`_weld_segments`, lines 266-427)

Python errors are modelled with `Except PyErr`; the only error the engine
itself can raise is the IndexError of `geom.boundary[0]` on an
empty boundary. `KeyError` is raised by the node-table lookups of
`insert_node_ids` further below. -/

inductive PyErr where
  | indexError
  | keyError
deriving DecidableEq

/-- The three accumulators of one pass: `gdf_line_net_new`,
`gdf_merged_all` and `gdf_deleted`. -/
structure WeldState (G : Type) where
  new : List G
  mergedAll : List G
  deleted : List G
deriving DecidableEq

/-- Lines 319-323: if some neighbour intersects every member of
`neighbours` (itself included), the frame is replaced by that first such
neighbour alone. -/
def collapseNeighbours (K : Kernel G P) (ns : List G) : List G :=
  match ns.find? (fun nb => ns.all (fun g => K.intersects nb g)) with
  | some nb => [nb]
  | none => ns

/-- pandas boolean-mask selection `neighbours[mask]`. -/
def maskSelect (ns : List G) (mask : List Bool) : List G :=
  (ns.zip mask).filterMap (fun gm => if gm.2 then some gm.1 else none)

/-- The source's dead-end keep condition (lines 331-340): one endpoint
touches an external line, while the other endpoint `intersects` a member
of the neighbour frame (`p1_neighbours` and `p2_neighbours` are the
intersection masks of the two endpoints against `neighbours`). -/
def srcDeadEndKeepCond (K : Kernel G P) (ext ns : List G) (p1 p2 : P) : Bool :=
  (any_check p1 ext K.ptTouches &&
    decide (0 < (ns.map (fun g => K.ptIntersects p2 g)).count true)) ||
  (any_check p2 ext K.ptTouches &&
    decide (0 < (ns.map (fun g => K.ptIntersects p1 g)).count true))

/-- Lines 325-351, the `len(neighbours) <= 1` dead-end branch: the edge is
kept iff the keep condition holds; otherwise it is recorded as deleted. -/
def deadEndStep (K : Kernel G P) (ext : List G) (st : WeldState G)
    (b : G) (p1 p2 : P) (ns : List G) : WeldState G :=
  let unused := !srcDeadEndKeepCond K ext ns p1 p2
  if unused then { st with deleted := st.deleted ++ [b] }
  else { st with new := st.new ++ [b] }

/-- Lines 377-396, the pre-merge neighbour filter (a Python for-loop with
`continue` and a `break` that discards the whole list). -/
def premergeGo (K : Kernel G P) (ext : List G) (geom : G)
    (stNew stDel : List G) (ns : List G) : List G → List G → List G
  | [], acc => acc
  | nb :: rest, acc =>
    if any_check nb stDel K.equals then
      premergeGo K ext geom stNew stDel ns rest acc
    else if any_check nb stNew K.within then
      premergeGo K ext geom stNew stDel ns rest acc
    else if any_check nb ext K.intersects then
      let houses := ext.filter (fun g => K.intersects nb g)
      if houses.all (fun g => K.disjoint geom g) then
        premergeGo K ext geom stNew stDel ns rest (acc ++ [nb])
      else premergeGo K ext geom stNew stDel ns rest acc
    else if any_check nb ns K.touches then []
    else premergeGo K ext geom stNew stDel ns rest (acc ++ [nb])

/-- Lines 377-425: filter the neighbour candidates, then either keep the
edge unchanged (no survivor) or record the linemerge of the edge with its
surviving neighbours in both `new` and `mergedAll`. -/
def mergeOrKeep (K : Kernel G P) (ext : List G) (st : WeldState G)
    (b : G) (ns : List G) : WeldState G :=
  let nl := premergeGo K ext b st.new st.deleted ns ns []
  if nl.length = 0 then { st with new := st.new ++ [b] }
  else
    let m := K.lineMerge (b :: nl)
    { st with new := st.new ++ [m], mergedAll := st.mergedAll ++ [m] }

/-- The neighbour frame the pass computes for the current edge b
(lines 315-323): the touching edges, after the junction collapse. -/
def neighboursOf (K : Kernel G P) (net : List G) (b : G) : List G :=
  collapseNeighbours K (net.filter (fun g => K.touches b g))

/-- Lines 325-374: dispatch on `len(neighbours)` (dead end, junction with
more than two neighbours, or exactly two neighbours). -/
def weldClassify (K : Kernel G P) (ext : List G) (st : WeldState G)
    (b : G) (ns : List G) : Except PyErr (WeldState G) :=
  if ns.length ≤ 1 then
    match K.boundary b with
    | [] => .error .indexError
    | p :: ps => .ok (deadEndStep K ext st b p ((p :: ps).getLastD p) ns)
  else if 2 < ns.length then
    match K.boundary b with
    | [] => .error .indexError
    | p :: ps =>
      let p2 := (p :: ps).getLastD p
      let p1n := ns.map (fun g => K.ptIntersects p g)
      let p2n := ns.map (fun g => K.ptIntersects p2 g)
      if p1n.count true = 1 then .ok (mergeOrKeep K ext st b (maskSelect ns p1n))
      else if p2n.count true = 1 then .ok (mergeOrKeep K ext st b (maskSelect ns p2n))
      else .ok { st with new := st.new ++ [b] }
  else .ok (mergeOrKeep K ext st b ns)

/-- One iteration of the `for i, b in gdf_line_net.iterrows()` loop
(lines 297-425). -/
def weldStep (K : Kernel G P) (ext net : List G) (st : WeldState G) (b : G) :
    Except PyErr (WeldState G) :=
  if any_check b st.mergedAll K.within then .ok st
  else weldClassify K ext st b (neighboursOf K net b)

def weldGo (K : Kernel G P) (ext net : List G) :
    WeldState G → List G → Except PyErr (WeldState G)
  | st, [] => .ok st
  | st, b :: rest =>
    match weldStep K ext net st b with
    | .error e => .error e
    | .ok st2 => weldGo K ext net st2 rest

/-- One full weld pass `_weld_segments(net, gen, houses)` with
`ext = pd.concat([gen, houses])`, returning the full accumulator state. -/
def weldPassFull (K : Kernel G P) (net ext : List G) :
    Except PyErr (WeldState G) :=
  weldGo K ext net ⟨[], [], []⟩ net

/-- `_weld_segments` itself: the new line frame of one pass. -/
def weldPass (K : Kernel G P) (net gen houses : List G) :
    Except PyErr (List G) :=
  match weldPassFull K net (gen ++ houses) with
  | .error e => .error e
  | .ok st => .ok st.new

/-- Lines 257-262: the while-loop of `weld_segments`, counting the passes
it performs.  The fuel argument is `last.length` at the first call; since
the loop only recurses when the edge count strictly decreased, fuel at
least `last.length` never runs out (the guard is false once it could). -/
def weldLoop (K : Kernel G P) (ext : List G) :
    Nat → List G → List G → Except PyErr (List G × Nat)
  | 0, _, new => .ok (new, 0)
  | fuel + 1, last, new =>
    if new.length < last.length then
      match weldPassFull K new ext with
      | .error e => .error e
      | .ok st =>
        match weldLoop K ext fuel new st.new with
        | .error e => .error e
        | .ok (r, k) => .ok (r, k + 1)
    else .ok (new, 0)

/-- `weld_segments` (lines 225-263) together with the number of
`_weld_segments` invocations it performs. -/
def weldSegmentsCount (K : Kernel G P) (net gen houses : List G) :
    Except PyErr (List G × Nat) :=
  let ext := gen ++ houses
  match weldPassFull K net ext with
  | .error e => .error e
  | .ok st =>
    match weldLoop K ext net.length net st.new with
    | .error e => .error e
    | .ok rk => .ok (rk.1, rk.2 + 1)

/-- The public simplifier `weld_segments(net, gen, houses)`. -/
def weld_segments (K : Kernel G P) (net gen houses : List G) :
    Except PyErr (List G) :=
  match weldSegmentsCount K net gen houses with
  | .error e => .error e
  | .ok (r, _) => .ok r

/-! ## Node registry (`create_nodes`, lines 26-73; `insert_node_ids`,
lines 76-97)

`create_nodes` collects `boundary[0]` and `boundary[-1]` of every line
(raising IndexError on an empty boundary), deduplicates the points by
their WKT string in first-seen order, assigns sequential integer ids and
the label `forks-<id>`, and finally sets the integer id as the table
index.  `insert_node_ids` then looks rows up with `nodes.at[wkt, ...]`,
i.e. with the endpoint's WKT string as the key against that integer
index; pandas raises KeyError when the key is not an index value.  The
dynamic typing of the index is modelled with `String ⊕ Nat`. -/

def wktPoint (p : Pt) : String :=
  "POINT (" ++ toString p.x ++ " " ++ toString p.y ++ ")"

structure NodeRow where
  idx : String ⊕ Nat
  id_full : String
  geometry_wkt : String
deriving DecidableEq

/-- The endpoint-collection loop of `create_nodes` (lines 39-44):
`Point(geom.boundary[0])` and `Point(geom.boundary[-1])` for each line. -/
def collectEndpoints : List (List Pt) → Except PyErr (List Pt)
  | [] => .ok []
  | l :: ls =>
    match boundaryOfCoords l with
    | [] => .error .indexError
    | p :: ps =>
      match collectEndpoints ls with
      | .error e => .error e
      | .ok rest => .ok (p :: (p :: ps).getLastD p :: rest)

def create_nodes (lines : List (List Pt)) : Except PyErr (List NodeRow) :=
  match collectEndpoints lines with
  | .error e => .error e
  | .ok pts =>
    let wkts := dedupFirst (pts.map wktPoint)
    .ok ((enumNats 0 wkts).map (fun iw =>
      ⟨Sum.inr iw.1, "forks-" ++ toString iw.1, iw.2⟩))

/-- pandas `nodes.at[key, 'id_full']`: KeyError when no row has `key` as
its index value. -/
def tableAt (rows : List NodeRow) (key : String ⊕ Nat) : Except PyErr String :=
  match rows.find? (fun r => r.idx == key) with
  | some r => .ok r.id_full
  | none => .error .keyError

def mapExcept (f : α → Except PyErr β) : List α → Except PyErr (List β)
  | [] => .ok []
  | a :: as =>
    match f a with
    | .error e => .error e
    | .ok b =>
      match mapExcept f as with
      | .error e => .error e
      | .ok bs => .ok (b :: bs)

/-- `insert_node_ids(lines, nodes)`: column-wise like the source — first
both WKT endpoint columns (each indexing `boundary`), then the
`from_node` lookups, then the `to_node` lookups. -/
def insert_node_ids (lines : List (List Pt)) (nodes : List NodeRow) :
    Except PyErr (List (String × String)) :=
  match mapExcept (fun l =>
      match boundaryOfCoords l with
      | [] => .error .indexError
      | p :: _ => .ok (wktPoint p)) lines with
  | .error e => .error e
  | .ok b0 =>
    match mapExcept (fun l =>
        match boundaryOfCoords l with
        | [] => .error .indexError
        | p :: ps => .ok (wktPoint ((p :: ps).getLastD p))) lines with
    | .error e => .error e
    | .ok b1 =>
      match mapExcept (fun w => tableAt nodes (Sum.inl w)) b0 with
      | .error e => .error e
      | .ok fromIds =>
        match mapExcept (fun w => tableAt nodes (Sum.inl w)) b1 with
        | .error e => .error e
        | .ok toIds => .ok (fromIds.zip toIds)

/-! ## Decomposer (`split_linestring`, lines 160-176;
`split_multilinestr_to_linestr`, lines 179-222; `mls_to_ls`, lines
134-141)

`PGeom` is a row geometry before welding: a `LineString` or a
`MultiLineString` of polylines. -/

inductive PGeom where
  | ls (coords : List Pt)
  | mls (parts : List (List Pt))
deriving DecidableEq

/-- `split_linestring`: one atomic two-point line per consecutive vertex
pair. -/
def split_linestring (coords : List Pt) : List (List Pt) :=
  (coords.zip coords.tail).map (fun ab => [ab.1, ab.2])

/-- One iteration of the row loop of `split_multilinestr_to_linestr`:
returns (was the row dropped?, the rows appended to `new_lines`).
For a `MultiLineString` the source uses only `li[0]` — the first part —
and wraps each produced segment with `gpd.tools.collect(s, multi=True)`,
i.e. as a one-part MultiLineString. -/
def splitRowStep : PGeom → Except PyErr (Bool × List PGeom)
  | .mls parts =>
    match parts with
    | [] => .error .indexError
    | li0 :: _ =>
      if 2 < li0.length then
        .ok (true, (split_linestring li0).map (fun s => .mls [s]))
      else .ok (false, [])
  | .ls coords =>
    if 2 < coords.length then
      .ok (true, (split_linestring coords).map (fun s => .ls s))
    else .ok (false, [])

def splitRowsGo : List PGeom → Except PyErr (List PGeom × List PGeom)
  | [] => .ok ([], [])
  | r :: rs =>
    match splitRowStep r with
    | .error e => .error e
    | .ok (dropped, added) =>
      match splitRowsGo rs with
      | .error e => .error e
      | .ok (kept, newLines) =>
        .ok ((if dropped then kept else r :: kept), added ++ newLines)

/-- `split_multilinestr_to_linestr`: surviving original rows (in order)
followed by all rows appended to `new_lines`. -/
def split_multilinestr_to_linestr (rows : List PGeom) :
    Except PyErr (List PGeom) :=
  match splitRowsGo rows with
  | .error e => .error e
  | .ok (kept, newLines) => .ok (kept ++ newLines)

/-- `mls_to_ls(geom)`: a MultiLineString is replaced by its first part
(`geom[0]`), printing a diagnostic when it has more than one part; any
other geometry is returned unchanged. -/
def mls_to_ls : PGeom → Except PyErr PGeom
  | .mls [] => .error .indexError
  | .mls (p :: _) => .ok (.ls p)
  | .ls c => .ok (.ls c)

/-- All coordinates appearing in a row geometry. -/
def pgeomPoints : PGeom → List Pt
  | .ls c => c
  | .mls parts => listConcatMap id parts

/-! ## The spec's wording of the dead-end keep condition

The specification states the dead-end rule with `touches` on both sides:
"(endpoint-1 touches an external attachment AND endpoint-2 touches a
network neighbour) OR (endpoint-2 touches an external attachment AND
endpoint-1 touches a network neighbour)".  Modelled from the spec's
words for comparison with the source's condition (which uses
`intersects` against the neighbour frame). -/
def specDeadEndKeepCond (K : Kernel G P) (ext ns : List G) (p1 p2 : P) : Bool :=
  (any_check p1 ext K.ptTouches && any_check p2 ns K.ptTouches) ||
  (any_check p2 ext K.ptTouches && any_check p1 ns K.ptTouches)

/-! ## Concrete fixtures -/

/-- A single atomic segment from (a1,a2) to (b1,b2). -/
def seg2 (a1 a2 b1 b2 : Int) : Geom := ⟨[[⟨a1, a2⟩, ⟨b1, b2⟩]]⟩

/-- Fixture for C1/C2/C6: one isolated network edge from (0,0) to (1,0). -/
def fxE1 : Geom := seg2 0 0 1 0

/-- A house-attachment edge from (-1,0) to (0,0), touching fxE1 at (0,0). -/
def fxH1 : Geom := seg2 (-1) 0 0 0

/-- Fixture for C3: the current edge, whose endpoint (1,0) lies in the
interior of its single neighbour fxG3. -/
def fxE3 : Geom := seg2 0 0 1 0

/-- C3 neighbour: the vertical segment x = 1, -1 ≤ y ≤ 1. -/
def fxG3 : Geom := seg2 1 (-1) 1 1

def fxNet3 : List Geom := [fxE3, fxG3]

/-- Fixture for C4: current edge (0,0)-(1,0). -/
def fxE4 : Geom := seg2 0 0 1 0

/-- C4 neighbour touching fxE4 at (0,0) and intersecting both others. -/
def fxN41 : Geom := seg2 0 0 1 1

/-- C4 neighbour touching fxE4 at (0,0); disjoint from fxN43. -/
def fxN42 : Geom := seg2 0 0 0 1

/-- C4 neighbour touching fxE4 at (1,0); disjoint from fxN42. -/
def fxN43 : Geom := seg2 1 0 1 1

def fxNet4 : List Geom := [fxE4, fxN41, fxN42, fxN43]

/-- Fixture for C8: current edge (0,0)-(2,0). -/
def fxE8 : Geom := seg2 0 0 2 0

/-- C8 neighbour touching fxE8 at the interior point (1,0). -/
def fxN81 : Geom := seg2 1 0 1 1

/-- C8 neighbour touching fxE8 at (0,0). -/
def fxN82 : Geom := seg2 0 0 0 1

def fxNet8 : List Geom := [fxE8, fxN81, fxN82]

/-- Fixture for C10: a closed triangular ring (empty boundary). -/
def fxRingCoords : List Pt := [⟨0, 0⟩, ⟨2, 0⟩, ⟨1, 2⟩, ⟨0, 0⟩]

def fxRing : Geom := ⟨[fxRingCoords]⟩

/-- C10 neighbour of the ring at its vertex (0,0). -/
def fxR1 : Geom := seg2 0 0 (-1) 0

/-- C10 neighbour of the ring at its interior point (2,0); disjoint from
fxR1. -/
def fxR2 : Geom := seg2 2 0 3 0

def fxNetRing : List Geom := [fxRing, fxR1, fxR2]

/-- Fixture for C2's amended claim (the spec's protected dead end):
edge (5,5)-(6,6) with a neighbour at (6,6) and a house at (5,5). -/
def fxE2p : Geom := seg2 5 5 6 6

def fxN2p : Geom := seg2 6 6 7 6

def fxH2p : Geom := seg2 4 4 5 5

def fxNet2p : List Geom := [fxE2p, fxN2p]

/-- Fixture for C5's witness: a three-way star at (0,0) whose outer
endpoints each touch a house — a nonempty pass fixpoint. -/
def fxSa : Geom := seg2 0 0 2 0

def fxSb : Geom := seg2 0 0 0 2

def fxSc : Geom := seg2 0 0 (-2) (-2)

def fxHa : Geom := seg2 2 0 2 1

def fxHb : Geom := seg2 0 2 1 2

def fxHc : Geom := seg2 (-2) (-2) (-3) (-2)

def fxStar : List Geom := [fxSa, fxSb, fxSc]

def fxStarHouses : List Geom := [fxHa, fxHb, fxHc]

/-! # Supporting lemmas about the weld pass -/

theorem any_check_iff {a : α} {l : List β} {how : α → β → Bool} :
    any_check a l how = true ↔ ∃ g ∈ l, how a g = true := by
  simp [any_check, List.any_eq_true]

theorem any_check_false_iff {a : α} {l : List β} {how : α → β → Bool} :
    any_check a l how = false ↔ ∀ g ∈ l, how a g = false := by
  simp [any_check, List.any_eq_false]

theorem collapseNeighbours_subset {K : Kernel G P} {ns : List G} :
    ∀ x ∈ collapseNeighbours K ns, x ∈ ns := by
  intro x hx
  unfold collapseNeighbours at hx
  split at hx
  · next nb hfind =>
    rcases List.mem_singleton.mp hx with rfl
    exact List.mem_of_find?_eq_some hfind
  · exact hx

theorem maskSelect_subset {ns : List G} {mask : List Bool} :
    ∀ x ∈ maskSelect ns mask, x ∈ ns := by
  intro x hx
  unfold maskSelect at hx
  rcases List.mem_filterMap.mp hx with ⟨gm, hgm, hsome⟩
  have hmem := List.of_mem_zip hgm
  split at hsome
  · injection hsome with h
    exact h ▸ hmem.1
  · cases hsome

theorem premergeGo_mem {K : Kernel G P} {ext : List G} {geom : G}
    {stNew stDel : List G} {ns : List G} :
    ∀ {rest acc : List G} {nb : G},
      nb ∈ premergeGo K ext geom stNew stDel ns rest acc →
      nb ∈ acc ∨ (nb ∈ rest ∧ any_check nb stNew K.within = false ∧
                  any_check nb stDel K.equals = false) := by
  intro rest
  induction rest with
  | nil =>
    intro acc nb h
    exact Or.inl h
  | cons b0 rest ih =>
    intro acc nb h
    simp only [premergeGo] at h
    split at h
    · rcases ih h with ha | ⟨hr, hc⟩
      · exact Or.inl ha
      · exact Or.inr ⟨List.mem_cons_of_mem _ hr, hc⟩
    · next hdel =>
      split at h
      · rcases ih h with ha | ⟨hr, hc⟩
        · exact Or.inl ha
        · exact Or.inr ⟨List.mem_cons_of_mem _ hr, hc⟩
      · next hnew =>
        split at h
        · split at h
          · rcases ih h with ha | ⟨hr, hc⟩
            · rcases List.mem_append.mp ha with ha2 | hb0
              · exact Or.inl ha2
              · rcases List.mem_singleton.mp hb0 with rfl
                exact Or.inr ⟨List.mem_cons_self _ _,
                  Bool.eq_false_iff.mpr (fun hx => by simp [hx] at hnew),
                  Bool.eq_false_iff.mpr (fun hx => by simp [hx] at hdel)⟩
            · exact Or.inr ⟨List.mem_cons_of_mem _ hr, hc⟩
          · rcases ih h with ha | ⟨hr, hc⟩
            · exact Or.inl ha
            · exact Or.inr ⟨List.mem_cons_of_mem _ hr, hc⟩
        · split at h
          · cases h
          · rcases ih h with ha | ⟨hr, hc⟩
            · rcases List.mem_append.mp ha with ha2 | hb0
              · exact Or.inl ha2
              · rcases List.mem_singleton.mp hb0 with rfl
                exact Or.inr ⟨List.mem_cons_self _ _,
                  Bool.eq_false_iff.mpr (fun hx => by simp [hx] at hnew),
                  Bool.eq_false_iff.mpr (fun hx => by simp [hx] at hdel)⟩
            · exact Or.inr ⟨List.mem_cons_of_mem _ hr, hc⟩

theorem mergeOrKeep_cases (K : Kernel G P) (ext : List G) (st : WeldState G)
    (b : G) (ns : List G) :
    mergeOrKeep K ext st b ns = { st with new := st.new ++ [b] } ∨
    ∃ nl, nl ≠ [] ∧
      mergeOrKeep K ext st b ns =
        { st with new := st.new ++ [K.lineMerge (b :: nl)],
                  mergedAll := st.mergedAll ++ [K.lineMerge (b :: nl)] } ∧
      ∀ nb ∈ nl, nb ∈ ns ∧ any_check nb st.new K.within = false ∧
                 any_check nb st.deleted K.equals = false := by
  simp only [mergeOrKeep]
  split
  · exact Or.inl rfl
  · next hlen =>
    refine Or.inr ⟨premergeGo K ext b st.new st.deleted ns ns [], ?_, rfl, ?_⟩
    · intro hnil
      exact hlen (by simp [hnil])
    · intro nb hnb
      rcases premergeGo_mem hnb with ha | ⟨hr, hc⟩
      · cases ha
      · exact ⟨hr, hc⟩

theorem deadEndStep_cases (K : Kernel G P) (ext : List G) (st : WeldState G)
    (b : G) (p1 p2 : P) (ns : List G) :
    deadEndStep K ext st b p1 p2 ns = { st with deleted := st.deleted ++ [b] } ∨
    deadEndStep K ext st b p1 p2 ns = { st with new := st.new ++ [b] } := by
  simp only [deadEndStep]
  split
  · exact Or.inl rfl
  · exact Or.inr rfl

theorem weldClassify_ok_cases {K : Kernel G P} {ext : List G} {st st2 : WeldState G}
    {b : G} {ns : List G} (h : weldClassify K ext st b ns = .ok st2) :
    st2 = { st with new := st.new ++ [b] } ∨
    st2 = { st with deleted := st.deleted ++ [b] } ∨
    ∃ nl, nl ≠ [] ∧
      st2 = { st with new := st.new ++ [K.lineMerge (b :: nl)],
                      mergedAll := st.mergedAll ++ [K.lineMerge (b :: nl)] } ∧
      ∀ nb ∈ nl, nb ∈ ns ∧ any_check nb st.new K.within = false ∧
                 any_check nb st.deleted K.equals = false := by
  simp only [weldClassify] at h
  split at h
  · split at h
    · cases h
    · have hd := Except.ok.inj h
      rcases deadEndStep_cases K ext st b _ _ ns with hc | hc
      · rw [hc] at hd
        exact Or.inr (Or.inl hd.symm)
      · rw [hc] at hd
        exact Or.inl hd.symm
  · split at h
    · split at h
      · cases h
      · split at h
        · have hd := (Except.ok.inj h).symm
          rcases mergeOrKeep_cases K ext st b (maskSelect ns _) with
              hc | ⟨nl, hne, hc, hmem⟩
          · exact Or.inl (hd.trans hc)
          · refine Or.inr (Or.inr ⟨nl, hne, hd.trans hc, ?_⟩)
            intro nb hnb
            obtain ⟨hin, hrest⟩ := hmem nb hnb
            exact ⟨maskSelect_subset nb hin, hrest⟩
        · split at h
          · have hd := (Except.ok.inj h).symm
            rcases mergeOrKeep_cases K ext st b (maskSelect ns _) with
                hc | ⟨nl, hne, hc, hmem⟩
            · exact Or.inl (hd.trans hc)
            · refine Or.inr (Or.inr ⟨nl, hne, hd.trans hc, ?_⟩)
              intro nb hnb
              obtain ⟨hin, hrest⟩ := hmem nb hnb
              exact ⟨maskSelect_subset nb hin, hrest⟩
          · exact Or.inl (Except.ok.inj h).symm
    · have hd := (Except.ok.inj h).symm
      rcases mergeOrKeep_cases K ext st b ns with hc | ⟨nl, hne, hc, hmem⟩
      · exact Or.inl (hd.trans hc)
      · exact Or.inr (Or.inr ⟨nl, hne, hd.trans hc, hmem⟩)

theorem weldStep_skip {K : Kernel G P} {ext net : List G} {st : WeldState G} {b : G}
    (hskip : any_check b st.mergedAll K.within = true) :
    weldStep K ext net st b = .ok st := by
  simp [weldStep, hskip]

theorem weldStep_ok_cases {K : Kernel G P} {ext net : List G}
    {st st2 : WeldState G} {b : G}
    (h : weldStep K ext net st b = .ok st2) :
    (st2 = st ∧ any_check b st.mergedAll K.within = true) ∨
    st2 = { st with new := st.new ++ [b] } ∨
    st2 = { st with deleted := st.deleted ++ [b] } ∨
    ∃ nl, nl ≠ [] ∧
      st2 = { st with new := st.new ++ [K.lineMerge (b :: nl)],
                      mergedAll := st.mergedAll ++ [K.lineMerge (b :: nl)] } ∧
      ∀ nb ∈ nl, K.touches b nb = true ∧ nb ∈ net ∧
        any_check nb st.new K.within = false ∧
        any_check nb st.deleted K.equals = false := by
  simp only [weldStep] at h
  split at h
  · next hskip => exact Or.inl ⟨(Except.ok.inj h).symm, hskip⟩
  · rcases weldClassify_ok_cases h with h1 | h1 | ⟨nl, hne, hst, hmem⟩
    · exact Or.inr (Or.inl h1)
    · exact Or.inr (Or.inr (Or.inl h1))
    · refine Or.inr (Or.inr (Or.inr ⟨nl, hne, hst, ?_⟩))
      intro nb hnb
      obtain ⟨hin, hrest⟩ := hmem nb hnb
      have hin2 := collapseNeighbours_subset nb hin
      rcases List.mem_filter.mp hin2 with ⟨hnet, htou⟩
      exact ⟨htou, hnet, hrest⟩

theorem weldStep_ok_new_le {K : Kernel G P} {ext net : List G}
    {st st2 : WeldState G} {b : G}
    (h : weldStep K ext net st b = .ok st2) :
    st2.new.length ≤ st.new.length + 1 := by
  rcases weldStep_ok_cases h with ⟨rfl, _⟩ | rfl | rfl | ⟨nl, _, rfl, _⟩ <;> simp

theorem weldStep_ok_mergedAll_mem {K : Kernel G P} {ext net : List G}
    {st st2 : WeldState G} {b : G}
    (h : weldStep K ext net st b = .ok st2) :
    ∀ m ∈ st.mergedAll, m ∈ st2.mergedAll := by
  rcases weldStep_ok_cases h with ⟨rfl, _⟩ | rfl | rfl | ⟨nl, _, rfl, _⟩ <;>
    intro m hm <;> simp [hm]

theorem weldStep_err {K : Kernel G P} {ext net : List G} {st : WeldState G}
    {b : G} {e : PyErr}
    (h : weldStep K ext net st b = .error e) : e = .indexError := by
  simp only [weldStep] at h
  split at h
  · cases h
  · simp only [weldClassify] at h
    split at h
    · split at h
      · exact (Except.error.inj h).symm
      · cases h
    · split at h
      · split at h
        · exact (Except.error.inj h).symm
        · split at h
          · cases h
          · split at h
            · cases h
            · cases h
      · cases h

theorem weldGo_err {K : Kernel G P} {ext net : List G} :
    ∀ {bs : List G} {st : WeldState G} {e : PyErr},
      weldGo K ext net st bs = .error e → e = .indexError := by
  intro bs
  induction bs with
  | nil =>
    intro st e h
    cases h
  | cons b rest ih =>
    intro st e h
    simp only [weldGo] at h
    split at h
    · next heq =>
      rw [weldStep_err heq] at h
      exact (Except.error.inj h).symm
    · exact ih h

theorem weldGo_new_le {K : Kernel G P} {ext net : List G} :
    ∀ {bs : List G} {st f : WeldState G},
      weldGo K ext net st bs = .ok f →
      f.new.length ≤ st.new.length + bs.length := by
  intro bs
  induction bs with
  | nil =>
    intro st f h
    cases h
    simp
  | cons b rest ih =>
    intro st f h
    simp only [weldGo] at h
    split at h
    · cases h
    · next st2 heq =>
      have h1 := weldStep_ok_new_le heq
      have h2 := ih h
      simp only [List.length_cons]
      omega

theorem weldGo_skip_lt {K : Kernel G P} {ext net : List G} {nb r : G} :
    ∀ {bs : List G} {st f : WeldState G},
      r ∈ st.mergedAll → K.within nb r = true → nb ∈ bs →
      weldGo K ext net st bs = .ok f →
      f.new.length < st.new.length + bs.length := by
  intro bs
  induction bs with
  | nil =>
    intro st f _ _ hmem _
    cases hmem
  | cons b rest ih =>
    intro st f hr hw hmem h
    simp only [weldGo] at h
    split at h
    · cases h
    · next st2 heq =>
      rcases List.mem_cons.mp hmem with rfl | hmem2
      · have hskip : any_check nb st.mergedAll K.within = true :=
          any_check_iff.mpr ⟨r, hr, hw⟩
        rw [weldStep_skip hskip] at heq
        cases Except.ok.inj heq
        have := weldGo_new_le h
        simp only [List.length_cons]
        omega
      · have hr2 := weldStep_ok_mergedAll_mem heq r hr
        have h1 := weldStep_ok_new_le heq
        have h2 := ih hr2 hw hmem2 h
        simp only [List.length_cons]
        omega

/-- The central accounting lemma behind idempotence: when a suffix of the
pass contributes one output row per remaining edge, every remaining edge
was kept unchanged — no skip, no deletion and no merge happened. -/
theorem weldGo_len_eq_id {K : Kernel G P}
    (H1 : ∀ g : G, K.within g g = true)
    (H2 : ∀ (g : G) (gs : List G), g ∈ gs → K.within g (K.lineMerge gs) = true)
    (H3 : ∀ g : G, K.touches g g = false)
    (H4 : ∀ g : G, K.equals g g = true)
    {ext net : List G} :
    ∀ (bs done : List G) (st f : WeldState G),
      net = done ++ bs →
      (∀ m ∈ st.mergedAll, m ∈ st.new) →
      (∀ g ∈ done, g ∈ st.new ∨ g ∈ st.deleted ∨ ∃ r ∈ st.new, K.within g r = true) →
      weldGo K ext net st bs = .ok f →
      f.new.length = st.new.length + bs.length →
      f.new = st.new ++ bs ∧ f.mergedAll = st.mergedAll ∧ f.deleted = st.deleted := by
  intro bs
  induction bs with
  | nil =>
    intro done st f _ _ _ h _
    cases h
    simp
  | cons b rest ih =>
    intro done st f hnet hInv1 hInv2 h hlen
    simp only [weldGo] at h
    split at h
    · cases h
    · next st2 heq =>
      rcases weldStep_ok_cases heq with ⟨rfl, _⟩ | hc | hc | ⟨nl, hne, hc, hconds⟩
      · -- skipped: one output row is missing, contradicting the count
        have := weldGo_new_le h
        simp only [List.length_cons] at hlen
        omega
      · -- kept unchanged: recurse with b moved into the processed prefix
        subst hc
        have hr := ih (done ++ [b]) { st with new := st.new ++ [b] } f
          (by rw [hnet, List.append_assoc]; rfl)
          (fun m hm => List.mem_append_left _ (hInv1 m hm))
          (fun g hg => by
            rcases List.mem_append.mp hg with hg2 | hg2
            · rcases hInv2 g hg2 with h2 | h2 | ⟨r, hrr, hw⟩
              · exact Or.inl (List.mem_append_left _ h2)
              · exact Or.inr (Or.inl h2)
              · exact Or.inr (Or.inr ⟨r, List.mem_append_left _ hrr, hw⟩)
            · rcases List.mem_singleton.mp hg2 with rfl
              exact Or.inl (List.mem_append_right _ (List.mem_singleton.mpr rfl)))
          h
          (by simp only [List.length_append, List.length_cons,
                List.length_singleton, List.length_nil] at hlen ⊢; omega)
        refine ⟨?_, hr.2.1, hr.2.2⟩
        rw [hr.1, List.append_assoc]
        rfl
      · -- deleted: one output row is missing, contradicting the count
        subst hc
        have := weldGo_new_le h
        simp only [List.length_cons] at hlen this
        omega
      · -- merged: the first surviving neighbour leads to a contradiction
        exfalso
        obtain ⟨nb, hnbmem⟩ := List.exists_mem_of_ne_nil nl hne
        obtain ⟨htou, hnbnet, hnew0, hdel0⟩ := hconds nb hnbmem
        rw [hnet] at hnbnet
        rcases List.mem_append.mp hnbnet with hdone | hcons
        · rcases hInv2 nb hdone with h2 | h2 | ⟨r, hrr, hw⟩
          · have := any_check_false_iff.mp hnew0 nb h2
            rw [H1 nb] at this
            cases this
          · have := any_check_false_iff.mp hdel0 nb h2
            rw [H4 nb] at this
            cases this
          · have := any_check_false_iff.mp hnew0 r hrr
            rw [hw] at this
            cases this
        · rcases List.mem_cons.mp hcons with rfl | hrest
          · rw [H3 nb] at htou
            cases htou
          · have hmmem : K.lineMerge (b :: nl) ∈ st2.mergedAll := by
              rw [hc]
              simp
            have hwm : K.within nb (K.lineMerge (b :: nl)) = true :=
              H2 nb (b :: nl) (List.mem_cons_of_mem _ hnbmem)
            have hlt := weldGo_skip_lt hmmem hwm hrest h
            rw [hc] at hlt
            simp only [List.length_append, List.length_singleton,
              List.length_cons, List.length_nil] at hlt hlen
            omega

theorem weldPassFull_new_le {K : Kernel G P} {net ext : List G} {st : WeldState G}
    (h : weldPassFull K net ext = .ok st) : st.new.length ≤ net.length := by
  have h2 : weldGo K ext net ⟨[], [], []⟩ net = .ok st := h
  have := weldGo_new_le h2
  simpa using this

/-- A pass whose output row count equals its input row count changed
nothing: its output is literally the input frame, and it recorded no merge
and no deletion. -/
theorem weldPassFull_len_eq {K : Kernel G P}
    (H1 : ∀ g : G, K.within g g = true)
    (H2 : ∀ (g : G) (gs : List G), g ∈ gs → K.within g (K.lineMerge gs) = true)
    (H3 : ∀ g : G, K.touches g g = false)
    (H4 : ∀ g : G, K.equals g g = true)
    {net ext : List G} {st : WeldState G}
    (h : weldPassFull K net ext = .ok st)
    (hl : st.new.length = net.length) :
    st.new = net ∧ st.mergedAll = [] ∧ st.deleted = [] := by
  have h2 : weldGo K ext net ⟨[], [], []⟩ net = .ok st := h
  have := weldGo_len_eq_id H1 H2 H3 H4 net [] ⟨[], [], []⟩ st
    (by simp) (by simp) (by simp) h2 (by simpa using hl)
  simpa using this

theorem weldLoop_count_le {K : Kernel G P} {ext : List G} :
    ∀ (fuel : Nat) (last new r : List G) (k : Nat),
      weldLoop K ext fuel last new = .ok (r, k) → k ≤ last.length := by
  intro fuel
  induction fuel with
  | zero =>
    intro last new r k h
    simp only [weldLoop] at h
    cases h
    exact Nat.zero_le _
  | succ fuel ih =>
    intro last new r k h
    simp only [weldLoop] at h
    split at h
    · next hlt =>
      split at h
      · cases h
      · split at h
        · cases h
        · rename_i a b heql
          obtain ⟨h1, h2⟩ := Prod.mk.inj (Except.ok.inj h)
          have := ih new _ a b heql
          omega
    · cases h
      exact Nat.zero_le _

theorem weldLoop_self {K : Kernel G P} {ext : List G} :
    ∀ (fuel : Nat) (l : List G), weldLoop K ext fuel l l = .ok (l, 0) := by
  intro fuel l
  cases fuel <;> simp [weldLoop]

/-- Invariant of the driver loop: the `new` frame is always the output of a
pass on the `last` frame; when the loop stops, the final frame is a literal
fixpoint of the pass. -/
theorem weldLoop_fix {K : Kernel G P}
    (H1 : ∀ g : G, K.within g g = true)
    (H2 : ∀ (g : G) (gs : List G), g ∈ gs → K.within g (K.lineMerge gs) = true)
    (H3 : ∀ g : G, K.touches g g = false)
    (H4 : ∀ g : G, K.equals g g = true)
    {ext : List G} :
    ∀ (fuel : Nat) (last new r : List G) (k : Nat) (stL : WeldState G),
      last.length ≤ fuel →
      weldPassFull K last ext = .ok stL → stL.new = new →
      weldLoop K ext fuel last new = .ok (r, k) →
      ∃ stR, weldPassFull K r ext = .ok stR ∧ stR.new = r := by
  intro fuel
  induction fuel with
  | zero =>
    intro last new r k stL hfuel hpass hnew h
    simp only [weldLoop] at h
    obtain ⟨rfl, rfl⟩ : new = r ∧ 0 = k := by
      have := Except.ok.inj h
      exact ⟨congrArg Prod.fst this, congrArg Prod.snd this⟩
    rcases List.length_eq_zero.mp (Nat.le_zero.mp hfuel) with rfl
    have hinit : weldPassFull K ([] : List G) ext = .ok ⟨[], [], []⟩ := rfl
    rw [hinit] at hpass
    cases Except.ok.inj hpass
    rw [← hnew]
    exact ⟨⟨[], [], []⟩, rfl, rfl⟩
  | succ fuel ih =>
    intro last new r k stL hfuel hpass hnew h
    simp only [weldLoop] at h
    split at h
    · next hlt =>
      split at h
      · cases h
      · next stN heqp =>
        split at h
        · cases h
        · rename_i a b heql
          obtain ⟨h1, h2⟩ := Prod.mk.inj (Except.ok.inj h)
          subst h1
          exact ih new stN.new a b stN (by omega) heqp rfl heql
    · next hge =>
      obtain ⟨rfl, rfl⟩ : new = r ∧ 0 = k := by
        have := Except.ok.inj h
        exact ⟨congrArg Prod.fst this, congrArg Prod.snd this⟩
      have hle : stL.new.length ≤ last.length := weldPassFull_new_le hpass
      have heq : stL.new.length = last.length := by
        rw [hnew] at hle ⊢
        omega
      have hfix := (weldPassFull_len_eq H1 H2 H3 H4 hpass heq).1
      rw [hnew] at hfix
      rw [hfix]
      exact ⟨stL, hpass, hnew.trans hfix⟩

/-- Unfolding of the driver on a literal pass fixpoint. -/
theorem weld_segments_of_fix {K : Kernel G P} {net gen houses : List G}
    {st : WeldState G}
    (h : weldPassFull K net (gen ++ houses) = .ok st) (hfix : st.new = net) :
    weld_segments K net gen houses = .ok net := by
  simp only [weld_segments, weldSegmentsCount, h, hfix, weldLoop_self]

theorem weldSegmentsCount_fix {K : Kernel G P}
    (H1 : ∀ g : G, K.within g g = true)
    (H2 : ∀ (g : G) (gs : List G), g ∈ gs → K.within g (K.lineMerge gs) = true)
    (H3 : ∀ g : G, K.touches g g = false)
    (H4 : ∀ g : G, K.equals g g = true)
    {net gen houses r : List G} {k : Nat}
    (h : weldSegmentsCount K net gen houses = .ok (r, k)) :
    ∃ stR, weldPassFull K r (gen ++ houses) = .ok stR ∧ stR.new = r := by
  simp only [weldSegmentsCount] at h
  split at h
  · cases h
  · next st0 heqp =>
    cases heql : weldLoop K (gen ++ houses) net.length net st0.new with
    | error e =>
      rw [heql] at h
      simp at h
    | ok rk =>
      rw [heql] at h
      obtain ⟨h1, h2⟩ := Prod.mk.inj (Except.ok.inj h)
      subst h1
      exact weldLoop_fix H1 H2 H3 H4 net.length net st0.new rk.1 rk.2 st0
        (Nat.le_refl _) heqp rfl (by rw [heql])

theorem weld_segments_ok_count {K : Kernel G P} {net gen houses out : List G}
    (h : weld_segments K net gen houses = .ok out) :
    ∃ k, weldSegmentsCount K net gen houses = .ok (out, k) := by
  simp only [weld_segments] at h
  cases heq : weldSegmentsCount K net gen houses with
  | error e =>
    rw [heq] at h
    simp at h
  | ok rk =>
    rw [heq] at h
    obtain ⟨r1, k1⟩ := rk
    refine ⟨k1, ?_⟩
    have h2 : r1 = out := Except.ok.inj h
    rw [h2]

/-! # Dead-end branch lemmas -/

theorem weldStep_deadEnd {K : Kernel G P} {ext net : List G} {st : WeldState G}
    {b : G} {p : P} {ps : List P}
    (hskip : any_check b st.mergedAll K.within = false)
    (hlen : (neighboursOf K net b).length ≤ 1)
    (hbnd : K.boundary b = p :: ps) :
    weldStep K ext net st b =
      .ok (deadEndStep K ext st b p ((p :: ps).getLastD p) (neighboursOf K net b)) := by
  unfold weldStep
  rw [hskip]
  simp only [Bool.false_eq_true, if_false]
  unfold weldClassify
  rw [if_pos hlen, hbnd]

/-- C2 (amended): within one pass, an edge whose dead-end classification
satisfies the source's keep condition — one endpoint touches an external
attachment line and the other endpoint intersects a member of its
(post-collapse) neighbour frame — is kept unchanged, never recorded as
deleted. -/
theorem claim2_protected_dead_end (K : Kernel G P) (ext net : List G)
    (st : WeldState G) (b : G) (p : P) (ps : List P)
    (hskip : any_check b st.mergedAll K.within = false)
    (hlen : (neighboursOf K net b).length ≤ 1)
    (hbnd : K.boundary b = p :: ps)
    (hprot : srcDeadEndKeepCond K ext (neighboursOf K net b)
      p ((p :: ps).getLastD p) = true) :
    weldStep K ext net st b = .ok { st with new := st.new ++ [b] } := by
  rw [weldStep_deadEnd hskip hlen hbnd]
  simp only [deadEndStep, hprot, Bool.not_true, Bool.false_eq_true, if_false]

/-- C3 (amended): within one pass, an edge classified as a dead end (at
most one neighbour after the junction collapse) is recorded as deleted iff
the source's keep condition fails — where the endpoint-to-neighbour test
is `intersects` against the neighbour frame, not `touches`; when the
condition holds the edge is kept unchanged. -/
theorem claim3_dead_end_iff (K : Kernel G P) (ext net : List G)
    (st : WeldState G) (b : G) (p : P) (ps : List P)
    (hskip : any_check b st.mergedAll K.within = false)
    (hlen : (neighboursOf K net b).length ≤ 1)
    (hbnd : K.boundary b = p :: ps) :
    (weldStep K ext net st b = .ok { st with deleted := st.deleted ++ [b] } ↔
      srcDeadEndKeepCond K ext (neighboursOf K net b)
        p ((p :: ps).getLastD p) = false) ∧
    (srcDeadEndKeepCond K ext (neighboursOf K net b)
        p ((p :: ps).getLastD p) = true →
      weldStep K ext net st b = .ok { st with new := st.new ++ [b] }) := by
  rw [weldStep_deadEnd hskip hlen hbnd]
  cases hC : srcDeadEndKeepCond K ext (neighboursOf K net b)
      p ((p :: ps).getLastD p) with
  | false =>
    constructor
    · simp only [deadEndStep, hC, Bool.not_false, if_true]
    · intro h
      cases h
  | true =>
    constructor
    · simp only [deadEndStep, hC, Bool.not_true, Bool.false_eq_true, if_false]
      constructor
      · intro h
        have h2 := congrArg WeldState.deleted (Except.ok.inj h)
        simp at h2
      · intro h
        cases h
    · intro _
      simp only [deadEndStep, hC, Bool.not_true, Bool.false_eq_true, if_false]

/-! # Claim theorems: driver and collapse behaviour -/

/-- C1 (amended): the driver terminates, stopping at the first pass whose
output edge count is not strictly smaller than its input count, and it
invokes the weld pass at most (initial edge count) + 1 times — one more
than the claimed bound, because the final, non-reducing pass is itself an
invocation. -/
theorem claim1_pass_bound (K : Kernel G P) (net gen houses r : List G) (k : Nat)
    (h : weldSegmentsCount K net gen houses = .ok (r, k)) :
    k ≤ net.length + 1 := by
  simp only [weldSegmentsCount] at h
  split at h
  · cases h
  · next st0 heqp =>
    cases heql : weldLoop K (gen ++ houses) net.length net st0.new with
    | error e =>
      rw [heql] at h
      simp at h
    | ok rk =>
      rw [heql] at h
      obtain ⟨h1, h2⟩ := Prod.mk.inj (Except.ok.inj h)
      have := weldLoop_count_le net.length net st0.new rk.1 rk.2 (by rw [heql])
      omega

/-- C1 (counterexample): on the one-edge network `[fxE1]` (no external
attachments) the driver performs 2 invocations of the weld pass — the
first deletes the unused edge, the second finds the fixpoint — exceeding
the claimed bound of (initial edge count) = 1 passes. -/
theorem claim1_counterexample :
    weldSegmentsCount CK [fxE1] [] [] = .ok ([], 2) ∧ ¬(2 ≤ [fxE1].length) :=
  ⟨rfl, by decide⟩

theorem claim1_witness : 2 ≤ [fxE1].length + 1 :=
  claim1_pass_bound CK [fxE1] [] [] [] 2 rfl

/-- C6: the edge count of the output of a single weld pass never exceeds
the edge count of its input — every iteration of the pass contributes at
most one row (kept, merged, or nothing when skipped or deleted). -/
theorem claim6_pass_length_le (K : Kernel G P) (net gen houses out : List G)
    (h : weldPass K net gen houses = .ok out) : out.length ≤ net.length := by
  simp only [weldPass] at h
  split at h
  · cases h
  · next st heq =>
    exact (Except.ok.inj h) ▸ weldPassFull_new_le heq

theorem claim6_witness : ([] : List Geom).length ≤ [fxE1].length :=
  claim6_pass_length_le CK [fxE1] [] [fxH1] [] rfl

/-- C5: the simplifier is idempotent.  For any kernel whose predicates
satisfy the four properties that hold of real geometry — `within` is
reflexive, every merged part lies within its linemerge, no line `touches`
itself, and `equals` is reflexive — a successful `weld_segments` run
yields a frame on which a second run returns the same frame, and the
second run's first weld pass produces zero reduction (it returns its input
unchanged). -/
theorem claim5_weld_segments_idempotent (K : Kernel G P)
    (H1 : ∀ g : G, K.within g g = true)
    (H2 : ∀ (g : G) (gs : List G), g ∈ gs → K.within g (K.lineMerge gs) = true)
    (H3 : ∀ g : G, K.touches g g = false)
    (H4 : ∀ g : G, K.equals g g = true)
    (net gen houses out : List G)
    (h : weld_segments K net gen houses = .ok out) :
    weld_segments K out gen houses = .ok out ∧
    weldPass K out gen houses = .ok out := by
  obtain ⟨k, hc⟩ := weld_segments_ok_count h
  obtain ⟨stR, hR, hRnew⟩ := weldSegmentsCount_fix H1 H2 H3 H4 hc
  refine ⟨weld_segments_of_fix hR hRnew, ?_⟩
  simp only [weldPass, hR, hRnew]

/-- C4 (amended): the junction-collapse rule replaces the neighbour frame
by a single neighbour exactly when SOME neighbour intersects every member
of the frame (the first such neighbour in frame order is chosen); the
all-pairs mutual-intersection condition of the claim is not required.
Otherwise the full frame is kept. -/
theorem find?_first {p : α → Bool} :
    ∀ {l : List α} {a : α}, l.find? p = some a →
      ∃ l1 l2, l = l1 ++ a :: l2 ∧ ∀ x ∈ l1, p x = false := by
  intro l
  induction l with
  | nil =>
    intro a h
    cases h
  | cons x xs ih =>
    intro a h
    cases hp : p x with
    | true =>
      rw [List.find?_cons_of_pos _ hp] at h
      cases Option.some.inj h
      exact ⟨[], xs, rfl, by simp⟩
    | false =>
      rw [List.find?_cons_of_neg _ (by simp [hp])] at h
      obtain ⟨l1, l2, rfl, hall⟩ := ih h
      refine ⟨x :: l1, l2, rfl, ?_⟩
      intro y hy
      rcases List.mem_cons.mp hy with rfl | hy2
      · exact hp
      · exact hall y hy2

theorem claim4_collapse_characterization (K : Kernel G P) (ns : List G) :
    (∃ nb ∈ ns, (∀ g ∈ ns, K.intersects nb g = true) ∧
      collapseNeighbours K ns = [nb] ∧
      ∃ l1 l2, ns = l1 ++ nb :: l2 ∧
        ∀ x ∈ l1, ∃ g ∈ ns, K.intersects x g = false) ∨
    ((∀ nb ∈ ns, ∃ g ∈ ns, K.intersects nb g = false) ∧
      collapseNeighbours K ns = ns) := by
  unfold collapseNeighbours
  cases hf : ns.find? (fun nb => ns.all (fun g => K.intersects nb g)) with
  | some nb =>
    left
    refine ⟨nb, List.mem_of_find?_eq_some hf, ?_, rfl, ?_⟩
    · have hall := List.find?_some hf
      intro g hg
      exact List.all_eq_true.mp hall g hg
    · obtain ⟨l1, l2, hsplit, hfail⟩ := find?_first hf
      refine ⟨l1, l2, hsplit, ?_⟩
      intro x hx
      rcases List.all_eq_false.mp (hfail x hx) with ⟨g, hg, hpg⟩
      exact ⟨g, hg, Bool.eq_false_iff.mpr hpg⟩
  | none =>
    right
    refine ⟨?_, rfl⟩
    intro nb hnb
    have hno := List.find?_eq_none.mp hf nb hnb
    have h2 : ns.all (fun g => K.intersects nb g) = false := by
      cases hall : ns.all (fun g => K.intersects nb g)
      · rfl
      · exact absurd hall hno
    rcases List.all_eq_false.mp h2 with ⟨g, hg, hpg⟩
    exact ⟨g, hg, Bool.eq_false_iff.mpr hpg⟩

/-- C4 (counterexample): for the current edge fxE4 the neighbour frame is
[fxN41, fxN42, fxN43]; fxN42 and fxN43 do not intersect each other, so not
every neighbour intersects every other — yet the pass collapses the frame
to the single neighbour [fxN41] (which intersects all three). -/
theorem claim4_counterexample :
    fxNet4.filter (fun g => CK.touches fxE4 g) = [fxN41, fxN42, fxN43] ∧
    CK.intersects fxN42 fxN43 = false ∧
    neighboursOf CK fxNet4 fxE4 = [fxN41] :=
  ⟨rfl, rfl, rfl⟩

/-! # Claim theorems: concrete counterexamples and witnesses -/

/-- C2 (counterexample): the house edge fxH1 touches exactly one network
edge — fxE1, at the house's endpoint (0,0) — yet one weld pass records
fxE1 as deleted (fxE1's other endpoint has no network neighbour, so the
keep condition fails), and the full simplifier returns the empty network,
disconnecting the house. -/
theorem claim2_counterexample :
    CK.boundary fxH1 = [⟨-1, 0⟩, ⟨0, 0⟩] ∧
    ([fxE1].filter (fun g => CK.ptTouches ⟨0, 0⟩ g)).length = 1 ∧
    ([fxE1].filter (fun g => CK.touches fxH1 g)).length = 1 ∧
    weldPassFull CK [fxE1] [fxH1] = .ok ⟨[], [], [fxE1]⟩ ∧
    weld_segments CK [fxE1] [] [fxH1] = .ok [] :=
  ⟨rfl, rfl, rfl, rfl, rfl⟩

theorem claim2_witness :
    weldStep CK [fxH2p] fxNet2p ⟨[], [], []⟩ fxE2p = .ok ⟨[fxE2p], [], []⟩ :=
  claim2_protected_dead_end CK [fxH2p] fxNet2p ⟨[], [], []⟩ fxE2p ⟨5, 5⟩ [⟨6, 6⟩]
    rfl (by decide) rfl rfl

/-- C3 (counterexample): for the edge fxE3 the neighbour frame is the
single edge fxG3, whose interior contains fxE3's endpoint (1,0): the
endpoint `intersects` fxG3 but does not `touch` it, so the claim's
touches-based condition is false (predicting deletion) — yet the source's
intersects-based condition holds and the pass keeps fxE3 (only fxG3 is
deleted). -/
theorem claim3_counterexample :
    neighboursOf CK fxNet3 fxE3 = [fxG3] ∧
    CK.boundary fxE3 = [⟨0, 0⟩, ⟨1, 0⟩] ∧
    specDeadEndKeepCond CK [fxH1] [fxG3] ⟨0, 0⟩ ⟨1, 0⟩ = false ∧
    srcDeadEndKeepCond CK [fxH1] [fxG3] ⟨0, 0⟩ ⟨1, 0⟩ = true ∧
    weldPassFull CK fxNet3 [fxH1] = .ok ⟨[fxE3], [], [fxG3]⟩ :=
  ⟨rfl, rfl, rfl, rfl, rfl⟩

theorem claim3_witness :
    weldStep CK [fxH1] fxNet3 ⟨[], [], []⟩ fxE3 = .ok ⟨[fxE3], [], []⟩ :=
  (claim3_dead_end_iff CK [fxH1] fxNet3 ⟨[], [], []⟩ fxE3 ⟨0, 0⟩ [⟨1, 0⟩]
    rfl (by decide) rfl).2 rfl

/-- C8 (amended): the linear-merge step never fails: the only error a weld
pass can ever raise is the IndexError of the boundary indexing in the
dead-end/junction classification.  When the parts passed to linemerge do
not form a single non-branching path, the pass silently records the
resulting multi-part geometry in its output (see the counterexample). -/
theorem claim8_no_merge_error (K : Kernel G P) (net ext : List G) (e : PyErr)
    (h : weldPassFull K net ext = .error e) : e = .indexError :=
  weldGo_err h

theorem claim8_witness : PyErr.indexError = PyErr.indexError :=
  claim8_no_merge_error CK [fxRing] [] PyErr.indexError rfl

/-- C8 (counterexample): the surviving neighbours of fxE8 are fxN81 and
fxN82; the three parts are connected but branching (fxN81 hangs off
fxE8's interior point (1,0)), so they do not form a single non-branching
path — yet the merge does not fail loudly: linemerge returns a two-part
geometry, which the pass silently records in its output. -/
theorem claim8_counterexample :
    premergeGo CK [] fxE8 [] [] (neighboursOf CK fxNet8 fxE8)
        (neighboursOf CK fxNet8 fxE8) [] = [fxN81, fxN82] ∧
    cLineMerge [fxE8, fxN81, fxN82] =
      ⟨[[⟨2, 0⟩, ⟨0, 0⟩, ⟨0, 1⟩], [⟨1, 0⟩, ⟨1, 1⟩]]⟩ ∧
    (⟨[[⟨2, 0⟩, ⟨0, 0⟩, ⟨0, 1⟩], [⟨1, 0⟩, ⟨1, 1⟩]]⟩ : Geom).parts.length = 2 ∧
    weldPassFull CK fxNet8 [] =
      .ok ⟨[⟨[[⟨2, 0⟩, ⟨0, 0⟩, ⟨0, 1⟩], [⟨1, 0⟩, ⟨1, 1⟩]]⟩],
           [⟨[[⟨2, 0⟩, ⟨0, 0⟩, ⟨0, 1⟩], [⟨1, 0⟩, ⟨1, 1⟩]]⟩], []⟩ :=
  ⟨rfl, rfl, rfl, rfl⟩

theorem collectEndpoints_closed (lines : List (List Pt)) :
    (∃ l ∈ lines, boundaryOfCoords l = []) →
    collectEndpoints lines = .error .indexError := by
  induction lines with
  | nil =>
    intro hex
    rcases hex with ⟨l, hl, _⟩
    cases hl
  | cons l ls ih =>
    intro hex
    simp only [collectEndpoints]
    rcases hex with ⟨l2, hl2, hb⟩
    rcases List.mem_cons.mp hl2 with rfl | hmem
    · rw [hb]
    · cases hbl : boundaryOfCoords l with
      | nil => rfl
      | cons p ps =>
        rw [ih ⟨l2, hmem, hb⟩]

/-- C10 (amended): `create_nodes` indexes every line's boundary, so any
collection containing a closed line (empty boundary) raises IndexError.
A weld pass raises IndexError when a closed line reaches the dead-end or
junction classification — e.g. an isolated ring — but not for every input
containing a ring: a ring with exactly two non-intersecting neighbours
takes the two-neighbour merge path, which performs no boundary indexing
(see the counterexample). -/
theorem claim10_closed_boundary_errors :
    (∀ lines : List (List Pt), (∃ l ∈ lines, boundaryOfCoords l = []) →
      create_nodes lines = .error .indexError) ∧
    weldPassFull CK [fxRing] [] = .error .indexError := by
  constructor
  · intro lines hex
    simp [create_nodes, collectEndpoints_closed lines hex]
  · rfl

theorem claim10_witness :
    create_nodes [fxRingCoords] = .error .indexError :=
  claim10_closed_boundary_errors.1 [fxRingCoords]
    ⟨fxRingCoords, List.mem_singleton.mpr rfl, rfl⟩

/-- C10 (counterexample): fxNetRing contains the closed ring fxRing, whose
boundary is empty — yet one weld pass returns a result instead of raising
an indexing error: the ring has exactly two non-intersecting neighbours,
takes the merge path (no boundary access), and its neighbours are then
skipped as parts of the recorded chain. -/
theorem claim10_counterexample :
    CK.boundary fxRing = [] ∧
    fxRing ∈ fxNetRing ∧
    weldPassFull CK fxNetRing [] =
      .ok ⟨[⟨[fxRingCoords, [⟨0, 0⟩, ⟨-1, 0⟩], [⟨2, 0⟩, ⟨3, 0⟩]]⟩],
           [⟨[fxRingCoords, [⟨0, 0⟩, ⟨-1, 0⟩], [⟨2, 0⟩, ⟨3, 0⟩]]⟩], []⟩ :=
  ⟨rfl, List.mem_cons_self _ _, rfl⟩

/-- C7 (code_bug): given a MultiLineString row with two parts, the
decomposer splits only part 0 into atomic segments and silently discards
part 1: the coordinates (5,5)-(6,5) of the second part appear nowhere in
the output, and no error or rejection occurs.  `mls_to_ls` likewise
returns only part 0 of a two-part MultiLineString. -/
theorem claim7_multipart_dropped :
    split_multilinestr_to_linestr
        [.mls [[⟨0, 0⟩, ⟨1, 0⟩, ⟨2, 0⟩], [⟨5, 5⟩, ⟨6, 5⟩]]] =
      .ok [.mls [[⟨0, 0⟩, ⟨1, 0⟩]], .mls [[⟨1, 0⟩, ⟨2, 0⟩]]] ∧
    ([PGeom.mls [[⟨0, 0⟩, ⟨1, 0⟩]], PGeom.mls [[⟨1, 0⟩, ⟨2, 0⟩]]].filter
        (fun r => (pgeomPoints r).contains ⟨5, 5⟩)) = [] ∧
    mls_to_ls (.mls [[⟨0, 0⟩, ⟨1, 0⟩, ⟨2, 0⟩], [⟨5, 5⟩, ⟨6, 5⟩]]) =
      .ok (.ls [⟨0, 0⟩, ⟨1, 0⟩, ⟨2, 0⟩]) :=
  ⟨rfl, rfl, rfl⟩

/-- C9 (code_bug): `create_nodes` sets the integer id as the node table's
index, but `insert_node_ids` performs its lookups with the endpoint's WKT
string as the key against that integer index — so annotating the very
edge set the table was built from raises KeyError instead of succeeding. -/
theorem claim9_lookup_keyerror :
    create_nodes [[⟨0, 0⟩, ⟨1, 0⟩]] =
      .ok [⟨Sum.inr 0, "forks-0", "POINT (0 0)"⟩,
           ⟨Sum.inr 1, "forks-1", "POINT (1 0)"⟩] ∧
    insert_node_ids [[⟨0, 0⟩, ⟨1, 0⟩]]
        [⟨Sum.inr 0, "forks-0", "POINT (0 0)"⟩,
         ⟨Sum.inr 1, "forks-1", "POINT (1 0)"⟩] =
      .error .keyError :=
  ⟨rfl, rfl⟩

/-- The fuel of `weldLoop` is irrelevant once it is at least the length of
the `last` frame: the guard `new.length < last.length` can fail at most
`last.length` times in a row, so the fuelled loop is the source's while
loop. -/
theorem weldLoop_fuel_irrel {K : Kernel G P} {ext : List G} :
    ∀ (fuel fuel2 : Nat) (last new : List G),
      last.length ≤ fuel → last.length ≤ fuel2 →
      weldLoop K ext fuel last new = weldLoop K ext fuel2 last new := by
  intro fuel
  induction fuel with
  | zero =>
    intro fuel2 last new h1 h2
    rcases List.length_eq_zero.mp (Nat.le_zero.mp h1) with rfl
    cases fuel2 with
    | zero => rfl
    | succ m =>
      simp only [weldLoop]
      rw [if_neg (by simp)]
  | succ n ih =>
    intro fuel2 last new h1 h2
    cases fuel2 with
    | zero =>
      rcases List.length_eq_zero.mp (Nat.le_zero.mp h2) with rfl
      simp only [weldLoop]
      rw [if_neg (by simp)]
    | succ m =>
      simp only [weldLoop]
      by_cases hlt : new.length < last.length
      · rw [if_pos hlt, if_pos hlt]
        cases weldPassFull K new ext with
        | error e => rfl
        | ok st =>
          dsimp only
          rw [ih m new st.new (by omega) (by omega)]
      · rw [if_neg hlt, if_neg hlt]

/-! # The concrete kernel satisfies the idempotence hypotheses

The four kernel-level hypotheses of the idempotence theorem hold of the
concrete shapely-like kernel: `within` is reflexive, every merged line
lies within its linemerge, no line touches itself, and `equals` is
reflexive. -/

theorem orient2_left (a b : Pt) : orient2 a b a = 0 := by
  unfold orient2
  ring

theorem orient2_right (a b : Pt) : orient2 a b b = 0 := by
  unfold orient2
  ring

theorem onSeg_left (s : Pt × Pt) : onSeg s.1 s = true := by
  simp only [onSeg, decide_eq_true_eq]
  exact ⟨orient2_left s.1 s.2, min_le_left _ _, le_max_left _ _,
    min_le_left _ _, le_max_left _ _⟩

theorem onSeg_left_swap (s : Pt × Pt) : onSeg s.1 (Prod.swap s) = true := by
  simp only [onSeg, decide_eq_true_eq, Prod.fst_swap, Prod.snd_swap]
  exact ⟨orient2_right s.2 s.1, min_le_right _ _, le_max_right _ _,
    min_le_right _ _, le_max_right _ _⟩

theorem dotD_self_nonneg (d : Pt) : 0 ≤ dotD d d := by
  unfold dotD
  exact add_nonneg (mul_self_nonneg _) (mul_self_nonneg _)

theorem dotD_sub_self (a d : Pt) : dotD (subP a a) d = 0 := by
  unfold subP dotD
  ring

theorem coverLoop_done (ivs : List (Int × Int)) (fuel : Nat) (cur tgt : Int)
    (h : tgt ≤ cur) : coverLoop ivs fuel cur tgt = true := by
  cases fuel <;> simp [coverLoop, h]

theorem coverFold_ge_init (cur : Int) : ∀ (l : List (Int × Int)) (acc : Int),
    acc ≤ l.foldl (fun acc iv => if iv.1 ≤ cur then max acc iv.2 else acc) acc := by
  intro l
  induction l with
  | nil => intro acc; simp
  | cons iv rest ih =>
    intro acc
    simp only [List.foldl_cons]
    refine le_trans ?_ (ih _)
    split
    · exact le_max_left _ _
    · exact le_refl _

theorem coverFold_ge_mem (cur : Int) : ∀ (l : List (Int × Int)) (acc : Int)
    (iv : Int × Int), iv ∈ l → iv.1 ≤ cur →
    iv.2 ≤ l.foldl (fun acc iv => if iv.1 ≤ cur then max acc iv.2 else acc) acc := by
  intro l
  induction l with
  | nil =>
    intro acc iv h
    cases h
  | cons jv rest ih =>
    intro acc iv hmem hle
    simp only [List.foldl_cons]
    rcases List.mem_cons.mp hmem with rfl | h2
    · refine le_trans ?_ (coverFold_ge_init cur rest _)
      rw [if_pos hle]
      exact le_max_right _ _
    · exact ih _ iv h2 hle

theorem coverLoop_hit (ivs : List (Int × Int)) (fuel : Nat) (cur tgt : Int)
    (hx : ∃ iv ∈ ivs, iv.1 ≤ cur ∧ tgt ≤ iv.2) :
    coverLoop ivs (fuel + 1) cur tgt = true := by
  obtain ⟨iv, hmem, hle, htgt⟩ := hx
  simp only [coverLoop]
  by_cases hdone : tgt ≤ cur
  · rw [if_pos hdone]
  · rw [if_neg hdone]
    have hbest := coverFold_ge_mem cur ivs cur iv hmem hle
    rw [if_pos (by omega)]
    exact coverLoop_done _ _ _ _ (by omega)

theorem segCoveredBy_of_swap {s t : Pt × Pt} {hsegs : List (Pt × Pt)}
    (hmem : t ∈ hsegs) (hcase : t = s ∨ t = Prod.swap s) :
    segCoveredBy s hsegs = true := by
  simp only [segCoveredBy]
  by_cases h0 : dotD (subP s.2 s.1) (subP s.2 s.1) = 0
  · rw [if_pos h0]
    refine List.any_eq_true.mpr ⟨t, hmem, ?_⟩
    rcases hcase with rfl | rfl
    · exact onSeg_left t
    · exact onSeg_left_swap s
  · rw [if_neg h0]
    have hcol : (decide (orient2 s.1 s.2 t.1 = 0 ∧ orient2 s.1 s.2 t.2 = 0)) = true := by
      rcases hcase with rfl | rfl
      · exact decide_eq_true ⟨orient2_left _ _, orient2_right _ _⟩
      · exact decide_eq_true ⟨orient2_right _ _, orient2_left _ _⟩
    have hfmem : t ∈ hsegs.filter (fun t =>
        decide (orient2 s.1 s.2 t.1 = 0 ∧ orient2 s.1 s.2 t.2 = 0)) :=
      List.mem_filter.mpr ⟨hmem, hcol⟩
    refine coverLoop_hit _ _ _ _
      ⟨_, List.mem_map_of_mem _ hfmem, ?_, ?_⟩ <;>
      rcases hcase with rfl | rfl <;>
      simp [dotD_sub_self, min_le_left, min_le_right, le_max_left, le_max_right]

theorem cWithin_of_segs {g h : Geom}
    (hc : ∀ s ∈ segsOf g, ∃ t ∈ segsOf h, t = s ∨ t = Prod.swap s) :
    cWithin g h = true := by
  refine List.all_eq_true.mpr ?_
  intro s hs
  obtain ⟨t, hmem, hcase⟩ := hc s hs
  exact segCoveredBy_of_swap hmem hcase

/-- Hypothesis H1 of the idempotence theorem holds of the concrete
kernel: `within` is reflexive. -/
theorem CK_within_refl (g : Geom) : cWithin g g = true :=
  cWithin_of_segs (fun s hs => ⟨s, hs, Or.inl rfl⟩)

/-- Hypothesis H4: `equals` is reflexive. -/
theorem CK_equals_refl (g : Geom) : cEquals g g = true := by
  simp [cEquals, CK_within_refl]

theorem mem_listConcatMap {f : α → List β} {a : β} :
    ∀ {l : List α}, a ∈ listConcatMap f l ↔ ∃ x ∈ l, a ∈ f x := by
  intro l
  induction l with
  | nil => simp [listConcatMap]
  | cons x xs ih => simp [listConcatMap, ih]

theorem segsOfPart_mem_append {qt : List Pt} :
    ∀ {l : List Pt} {s : Pt × Pt}, s ∈ segsOfPart l → s ∈ segsOfPart (l ++ qt) := by
  intro l
  induction l with
  | nil =>
    intro s h
    cases h
  | cons a l ih =>
    intro s h
    cases l with
    | nil => cases h
    | cons b rest =>
      rcases List.mem_cons.mp h with rfl | h2
      · exact List.mem_cons_self _ _
      · exact List.mem_cons_of_mem _ (ih h2)

theorem segsOfPart_mem_glue {qt : List Pt} :
    ∀ {p : List Pt} {a : Pt} {s : Pt × Pt},
      s ∈ segsOfPart ((a :: p).getLastD a :: qt) →
      s ∈ segsOfPart ((a :: p) ++ qt) := by
  intro p
  induction p with
  | nil =>
    intro a s h
    simpa [List.getLastD_cons, List.getLastD_nil] using h
  | cons b rest ih =>
    intro a s h
    have h2 : s ∈ segsOfPart ((b :: rest).getLastD b :: qt) := by
      have he : (a :: b :: rest).getLastD a = (b :: rest).getLastD b := by
        simp only [List.getLastD_cons]
      rwa [he] at h
    exact List.mem_cons_of_mem _ (ih h2)

theorem getLastD_reverse_cons (x : Pt) (xs : List Pt) (d : Pt) :
    ((x :: xs).reverse).getLastD d = x := by
  rw [List.getLastD_eq_getLast?, List.getLast?_reverse]
  rfl

theorem segsOfPart_mem_reverse :
    ∀ {l : List Pt} {s : Pt × Pt},
      s ∈ segsOfPart l → Prod.swap s ∈ segsOfPart l.reverse := by
  intro l
  induction l with
  | nil =>
    intro s h
    cases h
  | cons a l ih =>
    intro s h
    cases l with
    | nil => cases h
    | cons b rest =>
      rw [List.reverse_cons]
      rcases List.mem_cons.mp h with rfl | h2
      · -- the head segment (a, b); its swap is the junction segment of
        -- the reversed list
        cases heq : (b :: rest).reverse with
        | nil =>
          have := congrArg List.length heq
          simp at this
        | cons c cs =>
          have hlast : ((c :: cs) : List Pt).getLastD c = b := by
            rw [← heq]
            exact getLastD_reverse_cons b rest c
          refine segsOfPart_mem_glue ?_
          rw [hlast]
          exact List.mem_cons_self _ _
      · exact segsOfPart_mem_append (ih h2)

theorem joinParts_mem {deg : Pt → Nat} {p q m : List Pt}
    (h : joinParts deg p q = some m) :
    ∀ s, s ∈ segsOfPart p ∨ s ∈ segsOfPart q →
      s ∈ segsOfPart m ∨ Prod.swap s ∈ segsOfPart m := by
  intro s hs
  unfold joinParts at h
  split at h
  · next ph pt qh qt =>
    split at h
    · -- last p = head q: m = p ++ q.tail
      next hc =>
      cases Option.some.inj h
      rcases hs with h1 | h1
      · exact Or.inl (segsOfPart_mem_append h1)
      · refine Or.inl (segsOfPart_mem_glue ?_)
        rw [hc.1]
        exact h1
    · split at h
      · -- last p = last q: m = p ++ q.reverse.tail
        next hc =>
        cases Option.some.inj h
        rcases hs with h1 | h1
        · exact Or.inl (segsOfPart_mem_append h1)
        · have h2 := segsOfPart_mem_reverse h1
          cases heq : ((qh :: qt) : List Pt).reverse with
          | nil =>
            have := congrArg List.length heq
            simp at this
          | cons c cs =>
            rw [heq] at h2
            have hhead : c = (qh :: qt).getLastD qh := by
              have := List.head?_reverse ((qh :: qt) : List Pt)
              rw [heq] at this
              rw [List.getLastD_eq_getLast?, ← this]
              rfl
            refine Or.inr (segsOfPart_mem_glue ?_)
            rw [hc.1, ← hhead]
            exact h2
      · split at h
        · -- head p = head q: m = p.reverse ++ q.tail
          next hc =>
          cases Option.some.inj h
          rcases hs with h1 | h1
          · exact Or.inr (segsOfPart_mem_append (segsOfPart_mem_reverse h1))
          · cases heq : ((ph :: pt) : List Pt).reverse with
            | nil =>
              have := congrArg List.length heq
              simp at this
            | cons c cs =>
              have hlast : ((c :: cs) : List Pt).getLastD c = ph := by
                rw [← heq]
                exact getLastD_reverse_cons ph pt c
              refine Or.inl (segsOfPart_mem_glue ?_)
              rw [hlast, hc.1]
              exact h1
        · split at h
          · -- head p = last q: m = q ++ p.tail
            next hc =>
            cases Option.some.inj h
            rcases hs with h1 | h1
            · refine Or.inl (segsOfPart_mem_glue ?_)
              rw [← hc.1]
              exact h1
            · exact Or.inl (segsOfPart_mem_append h1)
          · cases h
  · cases h

theorem scanJoin2_spec {deg : Pt → Nat} {p : List Pt} :
    ∀ {l acc : List (List Pt)} {m : List Pt} {rest2 : List (List Pt)},
      scanJoin2 deg p l acc = some (m, rest2) →
      ∃ q ∈ l, joinParts deg p q = some m ∧
        ∀ part ∈ acc ++ l, part = q ∨ part ∈ rest2 := by
  intro l
  induction l with
  | nil =>
    intro acc m rest2 h
    cases h
  | cons q0 qs ih =>
    intro acc m rest2 h
    simp only [scanJoin2] at h
    split at h
    · next hj =>
      obtain ⟨h1, h2⟩ := Prod.mk.inj (Option.some.inj h)
      subst h1
      subst h2
      refine ⟨q0, List.mem_cons_self _ _, hj, ?_⟩
      intro part hpart
      rcases List.mem_append.mp hpart with ha | hl
      · exact Or.inr (List.mem_append_left _ ha)
      · rcases List.mem_cons.mp hl with rfl | hqs
        · exact Or.inl rfl
        · exact Or.inr (List.mem_append_right _ hqs)
    · obtain ⟨q, hq, hjoin, hall⟩ := ih h
      refine ⟨q, List.mem_cons_of_mem _ hq, hjoin, ?_⟩
      intro part hpart
      refine hall part ?_
      rcases List.mem_append.mp hpart with ha | hl
      · exact List.mem_append_left _ (List.mem_append_left _ ha)
      · rcases List.mem_cons.mp hl with rfl | hqs
        · exact List.mem_append_left _
            (List.mem_append_right _ (List.mem_singleton.mpr rfl))
        · exact List.mem_append_right _ hqs

theorem scanJoin_preserves {deg : Pt → Nat} :
    ∀ {parts parts2 : List (List Pt)},
      scanJoin deg parts = some parts2 →
      ∀ (s : Pt × Pt) (part : List Pt), part ∈ parts → s ∈ segsOfPart part →
        ∃ t, (∃ pt2 ∈ parts2, t ∈ segsOfPart pt2) ∧ (t = s ∨ t = Prod.swap s) := by
  intro parts
  induction parts with
  | nil =>
    intro parts2 h
    cases h
  | cons p rest ih =>
    intro parts2 h s part hpart hs
    simp only [scanJoin] at h
    split at h
    · next m rest2 hs2 =>
      cases Option.some.inj h
      obtain ⟨q, hq, hjoin, hall⟩ := scanJoin2_spec hs2
      rcases List.mem_cons.mp hpart with rfl | hrest
      · rcases joinParts_mem hjoin s (Or.inl hs) with hm | hm
        · exact ⟨s, ⟨m, List.mem_cons_self _ _, hm⟩, Or.inl rfl⟩
        · exact ⟨Prod.swap s, ⟨m, List.mem_cons_self _ _, hm⟩, Or.inr rfl⟩
      · rcases hall part (List.mem_append_right _ hrest) with rfl | hsurv
        · rcases joinParts_mem hjoin s (Or.inr hs) with hm | hm
          · exact ⟨s, ⟨m, List.mem_cons_self _ _, hm⟩, Or.inl rfl⟩
          · exact ⟨Prod.swap s, ⟨m, List.mem_cons_self _ _, hm⟩, Or.inr rfl⟩
        · exact ⟨s, ⟨part, List.mem_cons_of_mem _ hsurv, hs⟩, Or.inl rfl⟩
    · split at h
      · next rest2 hrec =>
        cases Option.some.inj h
        rcases List.mem_cons.mp hpart with rfl | hrest
        · exact ⟨s, ⟨part, List.mem_cons_self _ _, hs⟩, Or.inl rfl⟩
        · obtain ⟨t, ⟨pt2, hp2, ht⟩, hcase⟩ := ih hrec s part hrest hs
          exact ⟨t, ⟨pt2, List.mem_cons_of_mem _ hp2, ht⟩, hcase⟩
      · cases h

theorem lineMergeLoop_preserves :
    ∀ (fuel : Nat) (parts : List (List Pt)) (s : Pt × Pt) (part : List Pt),
      part ∈ parts → s ∈ segsOfPart part →
      ∃ t, (∃ pt2 ∈ lineMergeLoop fuel parts, t ∈ segsOfPart pt2) ∧
        (t = s ∨ t = Prod.swap s) := by
  intro fuel
  induction fuel with
  | zero =>
    intro parts s part h1 h2
    exact ⟨s, ⟨part, h1, h2⟩, Or.inl rfl⟩
  | succ n ih =>
    intro parts s part h1 h2
    simp only [lineMergeLoop]
    cases hs : scanJoin (fun v => (partEndsAll parts).count v) parts with
    | none => exact ⟨s, ⟨part, h1, h2⟩, Or.inl rfl⟩
    | some parts2 =>
      obtain ⟨t, ⟨pt2, hp2, ht⟩, hcase⟩ := scanJoin_preserves hs s part h1 h2
      obtain ⟨u, hu, hucase⟩ := ih parts2 t pt2 hp2 ht
      refine ⟨u, hu, ?_⟩
      rcases hcase with rfl | rfl <;> rcases hucase with rfl | rfl <;>
        simp [Prod.swap_swap]

/-- Hypothesis H2 of the idempotence theorem holds of the concrete
kernel: every line fed into linemerge lies within the merged result (the
merge only concatenates and reverses the parts' vertex chains, so every
input segment survives, possibly with swapped endpoints). -/
theorem CK_lineMerge_within (g : Geom) (gs : List Geom) (hg : g ∈ gs) :
    cWithin g (cLineMerge gs) = true := by
  apply cWithin_of_segs
  intro s hs
  obtain ⟨part, hpart, hsp⟩ := mem_listConcatMap.mp hs
  have hpflat : part ∈ listConcatMap Geom.parts gs :=
    mem_listConcatMap.mpr ⟨g, hg, hpart⟩
  obtain ⟨t, ⟨pt2, hp2, ht⟩, hcase⟩ :=
    lineMergeLoop_preserves (listConcatMap Geom.parts gs).length
      (listConcatMap Geom.parts gs) s part hpflat hsp
  exact ⟨t, mem_listConcatMap.mpr ⟨pt2, hp2, ht⟩, hcase⟩

theorem segsOfPart_fst_mem :
    ∀ {l : List Pt} {s : Pt × Pt}, s ∈ segsOfPart l → s.1 ∈ l := by
  intro l
  induction l with
  | nil =>
    intro s h
    cases h
  | cons a l ih =>
    intro s h
    cases l with
    | nil => cases h
    | cons b rest =>
      rcases List.mem_cons.mp h with rfl | h2
      · exact List.mem_cons_self _ _
      · exact List.mem_cons_of_mem _ (ih h2)

theorem Pt_eq_of_dd_zero {a b : Pt}
    (h : dotD (subP b a) (subP b a) = 0) : b = a := by
  have h2 : (b.x - a.x) * (b.x - a.x) + (b.y - a.y) * (b.y - a.y) = 0 := h
  have hx : b.x - a.x = 0 := by
    nlinarith [mul_self_nonneg (b.x - a.x), mul_self_nonneg (b.y - a.y)]
  have hy : b.y - a.y = 0 := by
    nlinarith [mul_self_nonneg (b.x - a.x), mul_self_nonneg (b.y - a.y)]
  obtain ⟨ax, ay⟩ := a
  obtain ⟨bx, byy⟩ := b
  simp only [Pt.mk.injEq]
  simp only at hx hy
  omega

theorem chainConst :
    ∀ (p : List Pt) (a : Pt), (∀ s ∈ segsOfPart (a :: p), s.1 = s.2) →
      (a :: p).getLastD a = a := by
  intro p
  induction p with
  | nil =>
    intro a _
    simp [List.getLastD_cons, List.getLastD_nil]
  | cons b rest ih =>
    intro a hdeg
    have hab : a = b := hdeg (a, b) (List.mem_cons_self _ _)
    have h2 : ∀ s ∈ segsOfPart (b :: rest), s.1 = s.2 := by
      intro s hs
      exact hdeg s (List.mem_cons_of_mem _ hs)
    have := ih b h2
    simp only [List.getLastD_cons] at this ⊢
    rw [this, hab]

theorem listConcatMap_eq_nil {f : α → List β} :
    ∀ {l : List α}, (∀ x ∈ l, f x = []) → listConcatMap f l = [] := by
  intro l
  induction l with
  | nil => intro _; rfl
  | cons x xs ih =>
    intro h
    simp only [listConcatMap]
    rw [h x (List.mem_cons_self _ _), ih (fun y hy => h y (List.mem_cons_of_mem _ hy))]
    rfl

theorem cBoundary_nil_of_degen {g : Geom}
    (hdeg : ∀ s ∈ segsOf g, s.1 = s.2) : cBoundary g = [] := by
  have hends : listConcatMap boundaryOfCoords g.parts = [] := by
    refine listConcatMap_eq_nil ?_
    intro part hpart
    cases part with
    | nil => rfl
    | cons a p =>
      have hchain : ∀ s ∈ segsOfPart (a :: p), s.1 = s.2 := by
        intro s hs
        exact hdeg s (mem_listConcatMap.mpr ⟨a :: p, hpart, hs⟩)
      simp only [boundaryOfCoords]
      rw [if_pos (chainConst p a hchain)]
  simp only [cBoundary]
  rw [hends]
  rfl

theorem collinearOverlapPos_self {s : Pt × Pt}
    (h0 : dotD (subP s.2 s.1) (subP s.2 s.1) ≠ 0) :
    collinearOverlapPos s s = true := by
  have hnn := dotD_self_nonneg (subP s.2 s.1)
  simp only [collinearOverlapPos, decide_eq_true_eq]
  refine ⟨orient2_left _ _, orient2_right _ _, by omega, ?_⟩
  rw [dotD_sub_self]
  have hpos : 0 < dotD (subP s.2 s.1) (subP s.2 s.1) := by omega
  rw [min_eq_left hpos.le, max_eq_right hpos.le, max_self, min_self]
  exact hpos

theorem segsOf_fst_mem_verts {g : Geom} {s : Pt × Pt}
    (h : s ∈ segsOf g) : s.1 ∈ vertsOf g := by
  obtain ⟨part, hpart, hs⟩ := mem_listConcatMap.mp h
  exact mem_listConcatMap.mpr ⟨part, hpart, segsOfPart_fst_mem hs⟩

theorem cInteriorsMeet_self {g : Geom}
    (hI : cIntersects g g = true) : cInteriorsMeet g g = true := by
  by_cases hnd : ∃ s ∈ segsOf g, dotD (subP s.2 s.1) (subP s.2 s.1) ≠ 0
  · obtain ⟨s, hs, h0⟩ := hnd
    refine Bool.or_eq_true_iff.mpr (Or.inl ?_)
    refine List.any_eq_true.mpr ⟨s, hs, List.any_eq_true.mpr ⟨s, hs, ?_⟩⟩
    rw [collinearOverlapPos_self h0]
    simp
  · push_neg at hnd
    have hdeg : ∀ s ∈ segsOf g, s.1 = s.2 := by
      intro s hs
      exact (Pt_eq_of_dd_zero (hnd s hs)).symm
    have hbnd := cBoundary_nil_of_degen hdeg
    obtain ⟨s, hs, _⟩ := List.any_eq_true.mp hI
    refine Bool.or_eq_true_iff.mpr (Or.inr ?_)
    refine List.any_eq_true.mpr
      ⟨s.1, List.mem_append_left _ (segsOf_fst_mem_verts hs), ?_⟩
    have hon : ptOnGeom s.1 g = true :=
      List.any_eq_true.mpr ⟨s, hs, onSeg_left s⟩
    rw [hon, hbnd]
    rfl

/-- Hypothesis H3: no line touches itself (a self-comparison either has
no intersection at all, or its interiors meet). -/
theorem CK_touches_irrefl (g : Geom) : cTouches g g = false := by
  unfold cTouches
  cases hI : cIntersects g g with
  | false => rfl
  | true =>
    rw [cInteriorsMeet_self hI]
    rfl

theorem claim5_witness :
    weld_segments CK fxStar [] fxStarHouses = .ok fxStar ∧
    weldPass CK fxStar [] fxStarHouses = .ok fxStar :=
  claim5_weld_segments_idempotent CK CK_within_refl CK_lineMerge_within
    CK_touches_irrefl CK_equals_refl fxStar [] fxStarHouses fxStar rfl
